import Mathlib

/-!
# Verification of the mozsvc token-authentication core

Shallow embedding of the authentication core of the `mozservices`
repository: the secret stores of `mozsvc/secrets.py`, the TokenServer
authentication policy of `mozsvc/user/__init__.py`, and the
memcached-backed nonce cache of `mozsvc/user/noncecache.py` together with
the cache client of `mozsvc/storage/mcclient.py`.  Pure functions become
Lean functions, the mutable stores become explicit state passing, and
Python exceptions become `Except` results.
-/

namespace Mozsvc

/-! ## Python error model -/

/-- The Python exception kinds raised by the embedded code. -/
inductive PyErr where
  | valueError (msg : String)
  | keyError
  | indexError
  | assertionError (msg : String)
  | backendError
  deriving DecidableEq, Repr

/-! ## `mozsvc/secrets.py`: the file-backed `Secrets` class

`Secrets._secrets` is a `defaultdict(list)` mapping node names to lists of
`(timestamp, secret)` string pairs.  We model it as an association list in
which an absent node reads as `[]`, matching `defaultdict(list)`. -/

/-- One entry of a node's secret list: a `(timestamp, secret)` string pair. -/
abbrev SecretEntry := String × String

/-- The `Secrets._secrets` mapping, as an association list. -/
abbrev SecretsStore := List (String × List SecretEntry)

/-- Read a node's secret list; a missing node yields `[]`. -/
def storeGet (st : SecretsStore) (node : String) : List SecretEntry :=
  match st.find? (fun e => e.1 == node) with
  | some e => e.2
  | none => []

/-- `node in self._secrets`. -/
def storeMem (st : SecretsStore) (node : String) : Bool :=
  st.any (fun e => e.1 == node)

/-- Bind a node to a secret list, replacing any previous binding. -/
def storeSet : SecretsStore → String → List SecretEntry → SecretsStore
  | [], node, l => [(node, l)]
  | e :: rest, node, l =>
    if e.1 == node then (node, l) :: rest else e :: storeSet rest node l

/-! ### Python's string and tuple comparison

Python compares strings by code point, lexicographically, and 2-tuples of
strings lexicographically on top of that (this is what both
`secrets.sort()` in `Secrets.load` and the `timestamp <= ...` test in
`Secrets.add` use).  We embed the comparison as structurally recursive
Boolean functions so that concrete instances evaluate inside the kernel. -/

/-- Code-point comparison of two characters. -/
def charLtB (a b : Char) : Bool := a.toNat < b.toNat

/-- Lexicographic code-point comparison of two character lists. -/
def strLtB : List Char → List Char → Bool
  | [], [] => false
  | [], _ :: _ => true
  | _ :: _, [] => false
  | a :: as, b :: bs =>
    if charLtB a b then true else if charLtB b a then false else strLtB as bs

/-- Python's `<` on strings. -/
def pyLt (a b : String) : Bool := strLtB a.data b.data

/-- Python's `<=` on strings (the negation of the flipped `<`,
as in any total order). -/
def pyLe (a b : String) : Bool := !(pyLt b a)

theorem charToNat_inj {a b : Char} (h : a.toNat = b.toNat) : a = b := by
  apply Char.ext
  apply UInt32.ext
  simpa [Char.toNat, UInt32.toNat] using h

theorem strLtB_irrefl : ∀ as : List Char, strLtB as as = false
  | [] => rfl
  | a :: as => by simp [strLtB, charLtB, strLtB_irrefl as]

theorem strLtB_trans : ∀ as bs cs : List Char, strLtB as bs = true →
    strLtB bs cs = true → strLtB as cs = true
  | [], _ :: _, _ :: _, _, _ => rfl
  | a :: as, b :: bs, c :: cs, h1, h2 => by
    simp only [strLtB, charLtB, decide_eq_true_eq] at h1 h2 ⊢
    rcases Nat.lt_trichotomy a.toNat b.toNat with hab | hab | hab
    · rcases Nat.lt_trichotomy b.toNat c.toNat with hbc | hbc | hbc
      · rw [if_pos (by omega)]
      · have : b = c := charToNat_inj hbc
        subst this
        rw [if_pos hab]
      · rw [if_neg (by omega), if_pos hbc] at h2
        exact absurd h2 (by simp)
    · have : a = b := charToNat_inj hab
      subst this
      rw [if_neg (by omega), if_neg (by omega)] at h1
      rcases Nat.lt_trichotomy a.toNat c.toNat with hac | hac | hac
      · rw [if_pos hac]
      · have : a = c := charToNat_inj hac
        subst this
        rw [if_neg (by omega), if_neg (by omega)] at h2 ⊢
        exact strLtB_trans as bs cs h1 h2
      · rw [if_neg (by omega), if_pos hac] at h2
        exact absurd h2 (by simp)
    · rw [if_neg (by omega), if_pos hab] at h1
      exact absurd h1 (by simp)

theorem strLtB_connex : ∀ as bs : List Char, strLtB as bs = false →
    strLtB bs as = false → as = bs
  | [], [], _, _ => rfl
  | [], _ :: _, h1, _ => by simp [strLtB] at h1
  | _ :: _, [], _, h2 => by simp [strLtB] at h2
  | a :: as, b :: bs, h1, h2 => by
    simp only [strLtB, charLtB, decide_eq_true_eq] at h1 h2
    rcases Nat.lt_trichotomy a.toNat b.toNat with hab | hab | hab
    · rw [if_pos hab] at h1
      exact absurd h1 (by simp)
    · have : a = b := charToNat_inj hab
      subst this
      rw [if_neg (by omega), if_neg (by omega)] at h1 h2
      rw [strLtB_connex as bs h1 h2]
    · rw [if_pos hab] at h2
      exact absurd h2 (by simp)

theorem strLtB_asymm (as bs : List Char) (h : strLtB as bs = true) :
    strLtB bs as = false := by
  by_contra hc
  have h2 : strLtB bs as = true := by
    cases hx : strLtB bs as
    · exact absurd hx hc
    · rfl
  have := strLtB_trans as bs as h h2
  rw [strLtB_irrefl] at this
  exact Bool.false_ne_true this

theorem pyLt_asymm (a b : String) (h : pyLt a b = true) : pyLt b a = false :=
  strLtB_asymm a.data b.data h

theorem pyLt_connex (a b : String) (h1 : pyLt a b = false) (h2 : pyLt b a = false) :
    a = b :=
  congrArg String.mk (strLtB_connex a.data b.data h1 h2)

/-- Python's comparison on `(timestamp, secret)` string 2-tuples. -/
def pairLeB (a b : SecretEntry) : Bool :=
  pyLt a.1 b.1 || (a.1 == b.1 && pyLe a.2 b.2)

/-- `pairLeB` as a proposition, the relation `secrets.sort()` sorts by. -/
def pairLe (a b : SecretEntry) : Prop := pairLeB a b = true

instance (a b : SecretEntry) : Decidable (pairLe a b) := by
  unfold pairLe; infer_instance

theorem pairLe_total : ∀ a b : SecretEntry, pairLe a b ∨ pairLe b a := by
  intro a b
  unfold pairLe pairLeB
  cases hab : pyLt a.1 b.1
  · cases hba : pyLt b.1 a.1
    · have heq : a.1 = b.1 := pyLt_connex a.1 b.1 hab hba
      cases hs : pyLt b.2 a.2
      · exact Or.inl (by simp [heq, pyLe, hs])
      · have : pyLt a.2 b.2 = false := pyLt_asymm b.2 a.2 hs
        exact Or.inr (by simp [heq, pyLe, this])
    · exact Or.inr (by simp [hba])
  · exact Or.inl (by simp [hab])

theorem pyLt_trans (a b c : String) (h1 : pyLt a b = true) (h2 : pyLt b c = true) :
    pyLt a c = true :=
  strLtB_trans a.data b.data c.data h1 h2

theorem pyLe_trans (a b c : String) (h1 : pyLe a b = true) (h2 : pyLe b c = true) :
    pyLe a c = true := by
  simp only [pyLe, Bool.not_eq_true'] at h1 h2 ⊢
  cases hca : pyLt c a with
  | false => rfl
  | true =>
    exfalso
    cases hab : pyLt a b with
    | true => exact absurd (pyLt_trans c a b hca hab) (by simp [h2])
    | false =>
      have : a = b := pyLt_connex a b hab h1
      subst this
      exact absurd hca (by simp [h2])

theorem pairLe_trans : ∀ {a b c : SecretEntry}, pairLe a b → pairLe b c → pairLe a c := by
  intro a b c hab hbc
  unfold pairLe pairLeB at hab hbc ⊢
  simp only [Bool.or_eq_true, Bool.and_eq_true, beq_iff_eq] at hab hbc ⊢
  rcases hab with h1 | ⟨e1, l1⟩
  · rcases hbc with h2 | ⟨e2, _⟩
    · exact Or.inl (pyLt_trans _ _ _ h1 h2)
    · exact Or.inl (e2 ▸ h1)
  · rcases hbc with h2 | ⟨e2, l2⟩
    · exact Or.inl (e1 ▸ h2)
    · exact Or.inr ⟨e1.trans e2, pyLe_trans _ _ _ l1 l2⟩

instance : IsTotal SecretEntry pairLe := ⟨pairLe_total⟩

instance : IsTrans SecretEntry pairLe := ⟨fun _ _ _ => pairLe_trans⟩

/-- `secrets.sort()` on the list of `(timestamp, secret)` pairs:
ascending in Python's tuple order `pairLe`. -/
def sortPairs (l : List SecretEntry) : List SecretEntry :=
  List.insertionSort pairLe l

/-- Split a character list on every occurrence of `sep`, Python
`str.split(sep)` semantics for a one-character separator. -/
def splitCharsOn (sep : Char) : List Char → List (List Char)
  | [] => [[]]
  | c :: cs =>
    let r := splitCharsOn sep cs
    if c = sep then [] :: r
    else
      match r with
      | [] => [[c]]
      | g :: gs => (c :: g) :: gs

/-- Python's `secret.split(':')`. -/
def pySplitColon (f : String) : List String :=
  (splitCharsOn ':' f.data).map String.mk

/-- Parse the `ts:secret` fields of one CSV row: `secret.split(':')` must
give exactly two parts, otherwise `ValueError("Invalid secret...")`. -/
def parsePairs : List String → Except PyErr (List SecretEntry)
  | [] => .ok []
  | f :: rest =>
    match pySplitColon f with
    | [t, s] => (parsePairs rest).map (fun ps => (t, s) :: ps)
    | _ => .error (.valueError "Invalid secret")

/-- `Secrets.load` over one file, the file already CSV-split into rows of
string fields (the `csv` module is external glue).  A row with fewer than
two fields is skipped (`continue`); a node already present raises
`ValueError("Duplicate node...")`; each row's `ts:secret` pairs are parsed
and then sorted with Python's tuple order before being stored. -/
def secretsLoadRows : SecretsStore → List (List String) → Except PyErr SecretsStore
  | st, [] => .ok st
  | st, [] :: rest => secretsLoadRows st rest
  | st, [_] :: rest => secretsLoadRows st rest
  | st, (node :: fields) :: rest =>
    if storeMem st node then .error (.valueError "Duplicate node")
    else
      match parsePairs fields with
      | .error e => .error e
      | .ok pairs => secretsLoadRows (storeSet st node (sortPairs pairs)) rest

/-- `Secrets.get`: the node's secrets, timestamps stripped, in stored order. -/
def secretsGet (st : SecretsStore) (node : String) : List String :=
  (storeGet st node).map (fun e => e.2)

/-- `Secrets.add`: append a secret timestamped at the current second `now`.
Python compares the new timestamp *string* (`str(int(time.time()))`)
against the last entry's timestamp string and fails the assertion when the
new string is `<=` the old one; an empty list raises `IndexError`, which is
caught and ignored.  The freshly generated random secret (`os.urandom` is
external) is passed in as `newSecret`. -/
def secretsAdd (st : SecretsStore) (node : String) (now : Nat) (newSecret : String) :
    Except PyErr SecretsStore :=
  let timestamp := toString now
  let cur := storeGet st node
  match cur.getLast? with
  | some last =>
    if pyLe timestamp last.1 then
      .error (.assertionError "You can only add one secret per second")
    else .ok (storeSet st node (cur ++ [(timestamp, newSecret)]))
  | none => .ok (storeSet st node (cur ++ [(timestamp, newSecret)]))

/-- The numeric value of a decimal timestamp string. -/
def decValue (s : String) : Nat :=
  s.data.foldl (fun n c => 10 * n + (c.toNat - 48)) 0

theorem pyLe_refl (a : String) : pyLe a a = true := by
  simp [pyLe, pyLt, strLtB_irrefl]

/-- `storeGet` on a cons cell looks at the head binding first. -/
theorem storeGet_cons (e : String × List SecretEntry) (rest : SecretsStore) (n : String) :
    storeGet (e :: rest) n = if e.1 = n then e.2 else storeGet rest n := by
  by_cases h : e.1 = n
  · simp [storeGet, List.find?, h]
  · have hb : (e.1 == n) = false := beq_eq_false_iff_ne.mpr h
    simp [storeGet, List.find?, hb, h]

/-- Reading back a node after `storeSet` yields the written list; other
nodes are unaffected. -/
theorem storeGet_storeSet (st : SecretsStore) (node : String) (l : List SecretEntry)
    (n : String) :
    storeGet (storeSet st node l) n = if n = node then l else storeGet st n := by
  induction st with
  | nil =>
    rw [show storeSet [] node l = [(node, l)] from rfl, storeGet_cons]
    by_cases h : n = node
    · simp [h]
    · simp [h, Ne.symm h, storeGet]
  | cons e rest ih =>
    by_cases he : e.1 = node
    · have hb : (e.1 == node) = true := beq_iff_eq.mpr he
      rw [show storeSet (e :: rest) node l = (node, l) :: rest from by
        simp [storeSet, hb], storeGet_cons]
      by_cases hn : n = node
      · simp [hn]
      · rw [if_neg (fun hc => hn hc.symm), if_neg hn, storeGet_cons,
          if_neg (fun hc => hn (he ▸ hc).symm)]
    · have hb : (e.1 == node) = false := beq_eq_false_iff_ne.mpr he
      rw [show storeSet (e :: rest) node l = e :: storeSet rest node l from by
        simp [storeSet, hb], storeGet_cons, ih, storeGet_cons]
      by_cases hn : e.1 = n
      · have hnn : n ≠ node := fun hc => he (hn.trans hc)
        simp [hn, hnn]
      · simp [hn]

/-- After `Secrets.load`, every node's secret list is sorted by Python's
tuple comparison: the invariant is preserved row by row. -/
theorem secretsLoadRows_sorted_inv :
    ∀ (rows : List (List String)) (st0 st : SecretsStore),
      (∀ node, List.Sorted pairLe (storeGet st0 node)) →
      secretsLoadRows st0 rows = .ok st →
      ∀ node, List.Sorted pairLe (storeGet st node)
  | [], st0, st, hinv, h => by
    simp only [secretsLoadRows] at h
    cases h
    exact hinv
  | [] :: rest, st0, st, hinv, h =>
    secretsLoadRows_sorted_inv rest st0 st hinv h
  | [_] :: rest, st0, st, hinv, h =>
    secretsLoadRows_sorted_inv rest st0 st hinv h
  | (node :: f :: fs) :: rest, st0, st, hinv, h => by
    simp only [secretsLoadRows] at h
    by_cases hm : storeMem st0 node = true
    · simp [hm] at h
    · simp only [hm, if_neg, Bool.false_eq_true, if_false] at h
      cases hp : parsePairs (f :: fs) with
      | error e => rw [hp] at h; exact absurd h (by simp)
      | ok pairs =>
        rw [hp] at h
        refine secretsLoadRows_sorted_inv rest _ st ?_ h
        intro n
        rw [storeGet_storeSet]
        by_cases hn : n = node
        · rw [if_pos hn]
          exact List.sorted_insertionSort pairLe pairs
        · rw [if_neg hn]
          exact hinv n

/-! ## Claims C7, C8, C9 -/

/-- C7 (counterexample): the claim says `Secrets.add` raises whenever the
node's list contains an entry whose timestamp is numerically `>=` the
current second.  The code compares timestamp *strings*: with the list
holding timestamp `"100"` (numerically `100 >= 20`) and current second
`20`, `"20" <= "100"` is false lexicographically, so `add` succeeds and
appends — refuting the claim. -/
theorem C7_counterexample :
    decValue "100" ≥ 20 ∧
    secretsAdd [("n", [("100", "s")])] "n" 20 "zz" =
      .ok [("n", [("100", "s"), ("20", "zz")])] := by
  constructor
  · decide
  · rfl

/-- C7 (amended): `Secrets.add` raises the assertion exactly when the
decimal string of the current second is lexicographically `<=` the last
entry's timestamp string.  Consequently a successful `add` appends
`(str(now), secret)` at the end of the node's list, and a second `add`
for the same node within the same wall-clock second raises the assertion
(the new timestamp string equals the last one), producing no updated
store. -/
theorem C7_add_same_second_raises (st : SecretsStore) (node : String) (now : Nat)
    (s1 s2 : String) :
    (∀ st1, secretsAdd st node now s1 = .ok st1 →
      storeGet st1 node = storeGet st node ++ [(toString now, s1)] ∧
      secretsAdd st1 node now s2 =
        .error (.assertionError "You can only add one secret per second")) ∧
    (∀ last, (storeGet st node).getLast? = some last →
      pyLe (toString now) last.1 = true →
      secretsAdd st node now s1 =
        .error (.assertionError "You can only add one secret per second")) := by
  constructor
  · intro st1 h
    have hget : storeGet st1 node = storeGet st node ++ [(toString now, s1)] := by
      simp only [secretsAdd] at h
      cases hl : (storeGet st node).getLast? with
      | some last =>
        rw [hl] at h
        by_cases hle : pyLe (toString now) last.1 = true
        · simp [hle] at h
        · simp only [hle, Bool.false_eq_true, if_neg, if_false] at h
          simp [hle] at h
          cases h
          rw [storeGet_storeSet, if_pos rfl]
      | none =>
        rw [hl] at h
        cases h
        rw [storeGet_storeSet, if_pos rfl]
    refine ⟨hget, ?_⟩
    simp only [secretsAdd, hget, List.getLast?_concat]
    rw [if_pos (pyLe_refl (toString now))]
  · intro last hl hle
    simp only [secretsAdd, hl]
    rw [if_pos hle]

/-- C7 (witness): on the empty store, adding at second 5 succeeds and
appends, and a second add in the same second raises the assertion. -/
theorem C7_witness :
    storeGet [("n", [("5", "a")])] "n" = storeGet [] "n" ++ [("5", "a")] ∧
    secretsAdd [("n", [("5", "a")])] "n" 5 "b" =
      .error (.assertionError "You can only add one secret per second") :=
  (C7_add_same_second_raises [] "n" 5 "a" "b").1 [("n", [("5", "a")])] rfl

/-- C8 (counterexample): the claim says that after `Secrets.load` every
node's entries are ascending by timestamp for all timestamps, including
timestamps of differing digit counts.  Loading the row `n,9:a,10:b`
stores `[("10","b"), ("9","a")]` — lexicographic string order — so the
numerically larger timestamp `10` comes first, `Secrets.get` returns the
newer secret first, and the last element is the *older* secret. -/
theorem C8_counterexample :
    secretsLoadRows [] [["n", "9:a", "10:b"]] =
      .ok [("n", [("10", "b"), ("9", "a")])] ∧
    decValue "10" > decValue "9" ∧
    secretsGet [("n", [("10", "b"), ("9", "a")])] "n" = ["b", "a"] := by
  refine ⟨rfl, by decide, by decide⟩

/-- C8 (amended): after `Secrets.load` completes from a fresh store, every
node's `(timestamp, secret)` list is ascending in Python's *lexicographic
string* tuple order (which agrees with numeric timestamp order exactly
when the timestamps have equal digit counts), so `get` returns secrets in
that string order and the last element is the lexicographically largest
timestamp. -/
theorem C8_load_sorted_lex (rows : List (List String)) (st : SecretsStore)
    (h : secretsLoadRows [] rows = .ok st) :
    ∀ node, List.Sorted pairLe (storeGet st node) :=
  secretsLoadRows_sorted_inv rows [] st
    (fun node => by rw [show storeGet [] node = [] from rfl]; exact List.sorted_nil) h

/-- C8 (witness): the two-entry file above loads successfully and node
`n`'s resulting list is sorted in the lexicographic tuple order. -/
theorem C8_witness :
    secretsLoadRows [] [["n", "9:a", "10:b"]] = .ok [("n", [("10", "b"), ("9", "a")])] ∧
    List.Sorted pairLe (storeGet [("n", [("10", "b"), ("9", "a")])] "n") :=
  ⟨rfl, C8_load_sorted_lex [["n", "9:a", "10:b"]] [("n", [("10", "b"), ("9", "a")])] rfl "n"⟩

/-- C9 (counterexample): the claim says `Secrets.load` raises a format
error whenever some row has fewer than two fields.  Loading a file whose
only row is the single field `lonely` succeeds and leaves the store
empty: short rows are silently skipped. -/
theorem C9_counterexample :
    secretsLoadRows [] [["lonely"]] = .ok [] := rfl

/-- C9 (amended): a row with fewer than two fields is silently skipped by
`Secrets.load` (the `continue` branch), exactly as section 6 of the spec
states; loading proceeds as if the row were absent. -/
theorem C9_short_rows_skipped (st : SecretsStore) (row : List String)
    (rest : List (List String)) (h : row.length < 2) :
    secretsLoadRows st (row :: rest) = secretsLoadRows st rest := by
  match row with
  | [] => rfl
  | [_] => rfl
  | _ :: _ :: _ => simp only [List.length_cons] at h; omega

/-- C9 (witness): skipping a concrete one-field row. -/
theorem C9_witness :
    (["x"] : List String).length < 2 ∧
    secretsLoadRows [] [["x"], ["n", "1:a"]] = secretsLoadRows [] [["n", "1:a"]] :=
  ⟨by decide, C9_short_rows_skipped [] ["x"] [["n", "1:a"]] (by decide)⟩

/-! ## `mozsvc/user/__init__.py`: TokenServerAuthenticationPolicy

The policy delegates token parsing to the external `tokenlib` library.  We
model tokenlib as an idealized MAC token codec: a token carries its payload
and the secret that signed it, `parse_token` succeeds exactly under the
signing secret (signature forgeries and collisions are idealized away) and
returns the embedded payload, and `get_derived_secret` is an arbitrary
deterministic function of the token and the secret, passed in as a
parameter `derive`.  The policy itself is modelled with a configured
secrets backend (`self.secrets` not `None`), a function from node name to
candidate secret list — the shared contract of the three store classes. -/

/-- The claims a tokenlib token may carry; a `none` field models a missing
dictionary key, whose lookup raises `KeyError`. -/
structure TokenData where
  uid : Option Int
  node : Option String
  deriving DecidableEq, Repr

/-- An idealized tokenlib token: payload plus signing secret. -/
structure Token where
  data : TokenData
  secret : String
  deriving DecidableEq, Repr

/-- `tokenlib.make_token(data, secret=secret)`. -/
def makeToken (d : TokenData) (secret : String) : Token := ⟨d, secret⟩

/-- `tokenlib.parse_token(tokenid, secret=secret)`: the payload when the
signature verifies (idealized: exactly under the signing secret),
otherwise `ValueError`, modelled as `none`. -/
def parseToken (t : Token) (secret : String) : Option TokenData :=
  if secret = t.secret then some t.data else none

/-- A Pyramid request, reduced to the two fields `_get_node_name` reads. -/
structure Request where
  host_url : String
  script_name : String
  deriving Repr

/-- Python's `str.startswith`. -/
def pyStartsWith (s p : String) : Bool := p.data.isPrefixOf s.data

/-- Python's `str.endswith`. -/
def pyEndsWith (s p : String) : Bool := p.data.reverse.isPrefixOf s.data.reverse

/-- Python's `s[:-n]` for `n ≤ len(s)`: drop the last `n` characters. -/
def strDropRight (s : String) (n : Nat) : String :=
  String.mk (s.data.take (s.data.length - n))

/-- `TokenServerAuthenticationPolicy._get_node_name`: the canonical node
name is the request's host URL with a default port stripped, plus the
script name. -/
def getNodeName (request : Request) : String :=
  let node_name := request.host_url
  let node_name :=
    if pyStartsWith node_name "http:" && pyEndsWith node_name ":80" then
      strDropRight node_name 3
    else if pyStartsWith node_name "https:" && pyEndsWith node_name ":443" then
      strDropRight node_name 4
    else node_name
  node_name ++ request.script_name

/-- `TokenServerAuthenticationPolicy._get_token_secrets` for a configured
secrets backend: `self.secrets.get(node_name)`. -/
def getTokenSecrets (backend : String → List String) (node_name : String) : List String :=
  backend node_name

/-- The `for secret in secrets` loop of `decode_hawk_id`.  Parse failure
(`ValueError`), a missing `uid` or `node` claim (`KeyError`) and the
node-mismatch `ValueError` raised inside the `try` are all caught by
`except (ValueError, KeyError)` and move on to the next candidate secret;
exhausting the loop raises `ValueError("invalid Hawk id")`. -/
def decodeLoop (derive : Token → String → String) (tok : Token) (node_name : String) :
    List String → Except PyErr (Int × String)
  | [] => .error (.valueError "invalid Hawk id")
  | secret :: rest =>
    match parseToken tok secret with
    | none => decodeLoop derive tok node_name rest
    | some data =>
      match data.uid with
      | none => decodeLoop derive tok node_name rest
      | some userid =>
        match data.node with
        | none => decodeLoop derive tok node_name rest
        | some token_node_name =>
          if token_node_name ≠ node_name then decodeLoop derive tok node_name rest
          else .ok (userid, derive tok secret)

/-- `TokenServerAuthenticationPolicy.decode_hawk_id`. -/
def decodeHawkId (derive : Token → String → String) (backend : String → List String)
    (request : Request) (tok : Token) : Except PyErr (Int × String) :=
  let node_name := getNodeName request
  decodeLoop derive tok node_name (getTokenSecrets backend node_name)

/-- `TokenServerAuthenticationPolicy.encode_hawk_id`: sign with the last
("most recent") candidate secret; on an empty candidate list the Python
`[-1]` indexing raises an uncaught `IndexError`. -/
def encodeHawkId (derive : Token → String → String) (backend : String → List String)
    (request : Request) (userid : Int) : Except PyErr (Token × String) :=
  let node_name := getNodeName request
  match (getTokenSecrets backend node_name).getLast? with
  | none => .error .indexError
  | some secret =>
    let tok := makeToken ⟨some userid, some node_name⟩ secret
    .ok (tok, derive tok secret)

/-- `Secrets.get` as a policy backend: timestampless secrets of the
file-backed store, `[]` for unknown nodes. -/
def fileSecretsBackend (st : SecretsStore) : String → List String :=
  fun node => secretsGet st node

example : getNodeName ⟨"http://host1.com:80", "/svc"⟩ = "http://host1.com/svc" := by decide

example : getNodeName ⟨"https://host1.com:443", ""⟩ = "https://host1.com" := by decide

example : getNodeName ⟨"http://host1.com", "/x"⟩ = "http://host1.com/x" := by decide

/-- A node-mismatched token is rejected whatever the candidate list: every
branch of the loop body moves on to the next secret. -/
theorem decodeLoop_node_mismatch (derive : Token → String → String) (tok : Token)
    (node_name : String) (n : String) (hnode : tok.data.node = some n)
    (hne : n ≠ node_name) :
    ∀ l : List String, decodeLoop derive tok node_name l = .error (.valueError "invalid Hawk id")
  | [] => rfl
  | secret :: rest => by
    have ih := decodeLoop_node_mismatch derive tok node_name n hnode hne rest
    by_cases hs : secret = tok.secret
    · have hp : parseToken tok secret = some tok.data := by rw [parseToken, if_pos hs]
      cases hu : tok.data.uid with
      | none => simp only [decodeLoop, hp, hu]; exact ih
      | some userid =>
        simp only [decodeLoop, hp, hu, hnode]
        rw [if_pos hne]
        exact ih
    · have hp : parseToken tok secret = none := by rw [parseToken, if_neg hs]
      simp only [decodeLoop, hp]
      exact ih

/-- When the token's signing secret occurs in the candidate list and its
payload matches the canonical node, the loop succeeds with the embedded
uid and the key derived under the signing secret. -/
theorem decodeLoop_finds (derive : Token → String → String) (tok : Token)
    (node_name : String) (userid : Int)
    (hdata : tok.data = ⟨some userid, some node_name⟩) :
    ∀ l : List String, tok.secret ∈ l →
      decodeLoop derive tok node_name l = .ok (userid, derive tok tok.secret)
  | [], h => absurd h (List.not_mem_nil _)
  | secret :: rest, h => by
    by_cases hs : secret = tok.secret
    · have hp : parseToken tok secret = some tok.data := by rw [parseToken, if_pos hs]
      simp only [decodeLoop, hp, hdata]
      rw [if_neg (fun hc : node_name ≠ node_name => hc rfl), hs]
    · have hp : parseToken tok secret = none := by rw [parseToken, if_neg hs]
      have hmem : tok.secret ∈ rest := by
        cases h with
        | head => exact absurd rfl hs
        | tail _ hm => exact hm
      simp only [decodeLoop, hp]
      exact decodeLoop_finds derive tok node_name userid hdata rest hmem

/-- C1: `decode_hawk_id` never succeeds for a token whose embedded `node`
claim differs from the request's canonical node name: for every request
and every token that decodes under some candidate secret but carries a
node claim unequal to the canonical node, `decode_hawk_id` raises
`ValueError` — regardless of which or how many candidate secrets verify
the token (each matching iteration raises inside the `try`, is caught and
moves on, so the loop always exhausts). -/
theorem C1_node_mismatch_always_rejected (derive : Token → String → String)
    (backend : String → List String) (request : Request) (tok : Token) (n : String)
    (hnode : tok.data.node = some n) (hne : n ≠ getNodeName request)
    (_hdec : ∃ s ∈ getTokenSecrets backend (getNodeName request), (parseToken tok s).isSome) :
    decodeHawkId derive backend request tok = .error (.valueError "invalid Hawk id") :=
  decodeLoop_node_mismatch derive tok (getNodeName request) n hnode hne
    (getTokenSecrets backend (getNodeName request))

/-- C1 (witness): a token for `http://other.com` signed with a secret the
store also holds for `http://host1.com/svc` is still rejected there. -/
theorem C1_witness :
    (⟨⟨some 42, some "http://other.com"⟩, "k2"⟩ : Token).data.node = some "http://other.com" ∧
    "http://other.com" ≠ getNodeName ⟨"http://host1.com", "/svc"⟩ ∧
    (∃ s ∈ getTokenSecrets (fun _ => ["k1", "k2"]) (getNodeName ⟨"http://host1.com", "/svc"⟩),
      (parseToken ⟨⟨some 42, some "http://other.com"⟩, "k2"⟩ s).isSome) ∧
    decodeHawkId (fun _ s => s) (fun _ => ["k1", "k2"]) ⟨"http://host1.com", "/svc"⟩
      ⟨⟨some 42, some "http://other.com"⟩, "k2"⟩ = .error (.valueError "invalid Hawk id") :=
  ⟨by decide, by decide, by decide,
    C1_node_mismatch_always_rejected (fun _ s => s) (fun _ => ["k1", "k2"])
      ⟨"http://host1.com", "/svc"⟩ ⟨⟨some 42, some "http://other.com"⟩, "k2"⟩
      "http://other.com" (by decide) (by decide) (by decide)⟩

/-- C5: when the canonical node has a non-empty candidate secret list,
`encode_hawk_id` signs with the last (most recent) candidate secret and
produces a `(tokenid, key)` pair that `decode_hawk_id` round-trips to the
same userid and the same derived key. -/
theorem C5_encode_decode_roundtrip (derive : Token → String → String)
    (backend : String → List String) (request : Request) (userid : Int)
    (h : getTokenSecrets backend (getNodeName request) ≠ []) :
    ∃ tok key,
      encodeHawkId derive backend request userid = .ok (tok, key) ∧
      (getTokenSecrets backend (getNodeName request)).getLast? = some tok.secret ∧
      decodeHawkId derive backend request tok = .ok (userid, key) := by
  cases hl : (getTokenSecrets backend (getNodeName request)).getLast? with
  | none => exact absurd (List.getLast?_eq_none_iff.mp hl) h
  | some secret =>
    have hmem : secret ∈ getTokenSecrets backend (getNodeName request) := by
      rcases List.mem_getLast?_eq_getLast (show secret ∈ _ from hl) with ⟨hne, heq⟩
      rw [heq]
      exact List.getLast_mem hne
    refine ⟨makeToken ⟨some userid, some (getNodeName request)⟩ secret, derive
      (makeToken ⟨some userid, some (getNodeName request)⟩ secret) secret, ?_, ?_, ?_⟩
    · rw [encodeHawkId]
      rw [hl]
    · rw [makeToken]
    · rw [decodeHawkId]
      exact decodeLoop_finds derive _ (getNodeName request) userid rfl _ hmem

/-- C5 (witness): a two-secret store for the canonical node round-trips
uid 42 through encode and decode, signing with the newer secret. -/
theorem C5_witness :
    getTokenSecrets (fun _ => ["aaa", "bbb"]) (getNodeName ⟨"http://host1.com", ""⟩) ≠ [] ∧
    (∃ tok key,
      encodeHawkId (fun t s => s ++ t.secret) (fun _ => ["aaa", "bbb"])
        ⟨"http://host1.com", ""⟩ 42 = .ok (tok, key) ∧
      (getTokenSecrets (fun _ => ["aaa", "bbb"])
        (getNodeName ⟨"http://host1.com", ""⟩)).getLast? = some tok.secret ∧
      decodeHawkId (fun t s => s ++ t.secret) (fun _ => ["aaa", "bbb"])
        ⟨"http://host1.com", ""⟩ tok = .ok (42, key)) :=
  ⟨by decide,
    C5_encode_decode_roundtrip (fun t s => s ++ t.secret) (fun _ => ["aaa", "bbb"])
      ⟨"http://host1.com", ""⟩ 42 (by decide)⟩

/-- C10: with an empty candidate list for the canonical node — e.g. a node
absent from a file-backed `Secrets` store — `encode_hawk_id` raises an
uncaught `IndexError` from `[-1]` on the empty list, while
`decode_hawk_id` raises the uniform authentication `ValueError` in the
same situation. -/
theorem C10_encode_empty_secrets_index_error (derive : Token → String → String)
    (st : SecretsStore) (request : Request) (userid : Int) (tok : Token)
    (h : storeGet st (getNodeName request) = []) :
    encodeHawkId derive (fileSecretsBackend st) request userid = .error .indexError ∧
    decodeHawkId derive (fileSecretsBackend st) request tok =
      .error (.valueError "invalid Hawk id") := by
  have hget : getTokenSecrets (fileSecretsBackend st) (getNodeName request) = [] := by
    rw [getTokenSecrets, fileSecretsBackend, secretsGet, h]
    rfl
  constructor
  · rw [encodeHawkId]
    rw [hget]
    rfl
  · rw [decodeHawkId]
    rw [hget]
    rfl

/-- C10 (witness): the empty file-backed store has no secrets for
`http://host2.com`, so encoding raises `IndexError` and decoding the
sample token raises `ValueError`. -/
theorem C10_witness :
    storeGet [] (getNodeName ⟨"http://host2.com", ""⟩) = [] ∧
    encodeHawkId (fun _ s => s) (fileSecretsBackend []) ⟨"http://host2.com", ""⟩ 42 =
      .error .indexError ∧
    decodeHawkId (fun _ s => s) (fileSecretsBackend []) ⟨"http://host2.com", ""⟩
      ⟨⟨some 42, some "http://host2.com"⟩, "aaa"⟩ = .error (.valueError "invalid Hawk id") :=
  ⟨by decide,
    (C10_encode_empty_secrets_index_error (fun _ s => s) [] ⟨"http://host2.com", ""⟩ 42
      ⟨⟨some 42, some "http://host2.com"⟩, "aaa"⟩ (by decide)).1,
    (C10_encode_empty_secrets_index_error (fun _ s => s) [] ⟨"http://host2.com", ""⟩ 42
      ⟨⟨some 42, some "http://host2.com"⟩, "aaa"⟩ (by decide)).2⟩

/-! ## `mozsvc/secrets.py`: the `DerivedSecrets` class

`DerivedSecrets.get` calls `tokenlib.utils.HKDF`, an external library
primitive.  We model HKDF as an abstract deterministic function bundled
with its output-length contract (RFC 5869: HKDF returns exactly the
requested number of octets); every theorem below holds for any such
implementation, and determinism is inherent in it being a function. -/

/-- An HKDF implementation: `hkdfFun secret salt info size` returns the
derived key material, always exactly `size` bytes. -/
structure HKDFImpl where
  hkdfFun : String → Option String → String → Nat → List Nat
  hkdfLen : ∀ m salt info size, (hkdfFun m salt info size).length = size

/-- Namespace prefix for the HKDF `info` parameter
(`DerivedSecrets.HKDF_INFO_NODE_SECRET`). -/
def HKDF_INFO_NODE_SECRET : String := "services.mozilla.com/mozsvc/v1/node_secret/"

/-- Lowercase hex digit for a value below 16. -/
def hexDigitChar (n : Nat) : Char :=
  if n < 10 then Char.ofNat (48 + n) else Char.ofNat (87 + n)

/-- `binascii.b2a_hex`: two lowercase hex digits per byte. -/
def bytesToHex (bs : List Nat) : String :=
  String.mk (bs.foldr (fun b acc => hexDigitChar (b / 16 % 16) :: hexDigitChar (b % 16) :: acc) [])

/-- The `for master_secret in self._master_secrets` loop of
`DerivedSecrets.get`: one derived secret per master secret, with requested
size `len(master_secret) / 2` (Python 2 floor division on the character
count of the hex-encoded master). -/
def derivedSecretsGo (H : HKDFImpl) (info : String) : List String → List String
  | [] => []
  | m :: rest => bytesToHex (H.hkdfFun m none info (m.length / 2)) :: derivedSecretsGo H info rest

/-- `DerivedSecrets.get`: derive one node secret per master secret using
`info = HKDF_INFO_NODE_SECRET + node` and no salt. -/
def derivedSecretsGet (H : HKDFImpl) (master_secrets : List String) (node : String) :
    List String :=
  derivedSecretsGo H (HKDF_INFO_NODE_SECRET ++ node) master_secrets

/-- A concrete HKDF implementation (all-zero output) used to evaluate the
embedding at concrete inputs; the length facts below are
implementation-independent. -/
def hkdfZeros : HKDFImpl :=
  ⟨fun _ _ _ size => List.replicate size 0, fun _ _ _ size => List.length_replicate size 0⟩

theorem bytesToHex_length (bs : List Nat) : (bytesToHex bs).length = 2 * bs.length := by
  induction bs with
  | nil => rfl
  | cons b rest ih =>
    simp only [bytesToHex, String.length] at ih ⊢
    simp only [List.foldr_cons, List.length_cons]
    omega

/-- C6 (counterexample): the claim asserts the hex-encoded derived secret
always has the same length as the master secret.  For the 3-character
master `"abc"`, Python 2's `len("abc") / 2 = 1` floor division yields one
derived byte, hence a 2-character hex secret — a length the HKDF
output-length contract forces for every implementation. -/
theorem C6_counterexample :
    derivedSecretsGet hkdfZeros ["abc"] "node" = ["00"] ∧
    ("00" : String).length = 2 ∧ ("abc" : String).length = 3 :=
  ⟨rfl, by decide, by decide⟩

/-- C6 (amended): for every HKDF implementation, list of master secrets
and node id, `DerivedSecrets.get` returns exactly one derived secret per
master secret, each equal to the hex encoding of
`HKDF(master, salt=None, info=HKDF_INFO_NODE_SECRET + node,
size=len(master)/2)` with `/` the Python 2 floor division, so the
hex-encoded derived secret has length `len(master)` rounded down to an
even number — equal to `len(master)` whenever that is even, as it is for
hex-encoded masters.  Determinism is immediate: the result is a pure
function of `(master_secrets, node)`. -/
theorem C6_hkdf_derivation (H : HKDFImpl) (master_secrets : List String) (node : String) :
    (derivedSecretsGet H master_secrets node).length = master_secrets.length ∧
    (∀ i, (derivedSecretsGet H master_secrets node).get? i =
      (master_secrets.get? i).map (fun m =>
        bytesToHex (H.hkdfFun m none (HKDF_INFO_NODE_SECRET ++ node) (m.length / 2)))) ∧
    (∀ m : String,
      (bytesToHex (H.hkdfFun m none (HKDF_INFO_NODE_SECRET ++ node) (m.length / 2))).length =
        2 * (m.length / 2)) := by
  refine ⟨?_, ?_, ?_⟩
  · rw [derivedSecretsGet]
    induction master_secrets with
    | nil => rfl
    | cons m rest ih => simp only [derivedSecretsGo, List.length_cons, ih]
  · intro i
    rw [derivedSecretsGet]
    induction master_secrets generalizing i with
    | nil => rfl
    | cons m rest ih =>
      cases i with
      | zero => rfl
      | succ j => simp only [derivedSecretsGo, List.get?_cons_succ, ih]
  · intro m
    rw [bytesToHex_length, H.hkdfLen]

/-! ## `mozsvc/user/noncecache.py`: MemcachedNonceCache

The cache lives in memcached (`mozsvc/storage/mcclient.py`).  We model the
cache contents as an explicit list of entries with absolute expiry times:
`get` sees only live entries (memcached TTL semantics), `add` is
create-if-absent, and nothing is ever deleted.  The two `time.time()`
reads within one `check_nonce` call are modelled as the same instant
`now`; timestamps and TTLs are integers, so Python's `int()` truncations
are identities.  The `_key` sha1+b64 hash is modelled as the colon-join of
the component names itself (a collision-free idealization of the hash). -/

/-- A value stored by the nonce cache: the integer clock skew, or the
`True` sentinel marking a seen nonce (JSON round-tripped by the client). -/
inductive MCValue where
  | int (i : Int)
  | bool (b : Bool)
  deriving DecidableEq, Repr

/-- Python arithmetic coerces `True`/`False` to `1`/`0` when a cached
value is used as a number (`timestamp + skew`). -/
def MCValue.toInt : MCValue → Int
  | .int i => i
  | .bool b => if b then 1 else 0

/-- One memcached entry: key, value and absolute expiry time. -/
structure MCEntry where
  key : String
  value : MCValue
  expiry : Int
  deriving DecidableEq, Repr

/-- The memcached contents. -/
abbrev CacheState := List MCEntry

/-- An entry is live at time `now` when it has not yet expired. -/
def MCEntry.live (e : MCEntry) (now : Int) : Bool := decide (now < e.expiry)

/-- `get` of one key: the first live entry under that key; expired entries
are treated as absent. -/
def mcGet (st : CacheState) (now : Int) (k : String) : Option MCValue :=
  match st.find? (fun e => e.key == k && e.live now) with
  | some e => some e.value
  | none => none

/-- `add(key, value, time=ttl)`: create-if-absent; succeeds exactly when
no live entry holds the key, storing expiry `now + ttl`. -/
def mcAdd (st : CacheState) (now : Int) (k : String) (v : MCValue) (ttl : Int) :
    CacheState × Bool :=
  if (st.find? (fun e => e.key == k && e.live now)).isSome then (st, false)
  else (⟨k, v, now + ttl⟩ :: st, true)

/-- Colon-join of the component character lists, as in `":".join(names)`. -/
def joinColonChars : List (List Char) → List Char
  | [] => []
  | [x] => x
  | x :: rest => x ++ ':' :: joinColonChars rest

/-- `MemcachedNonceCache._key`: sha1+b64 of the colon-joined component
names in the source, modelled as the join itself. -/
def ncKey (names : List String) : String :=
  String.mk (joinColonChars (names.map String.data))

/-- Python's `abs` on integers. -/
def pyAbs (x : Int) : Int := if x < 0 then -x else x

/-- The nonce cache configuration: `nonce_ttl` (the freshness window) and
`id_ttl` (lifetime of a clock-skew record), both integer seconds after the
constructor's rounding. -/
structure NonceCacheConfig where
  nonce_ttl : Int
  id_ttl : Int
  deriving DecidableEq, Repr

/-- The key `sha1(<id>:skew)` under which the clock skew for an id lives. -/
def skewKey (id : String) : String := ncKey [id, "skew"]

/-- The key `sha1(<id>:nonce:<timestamp>:<nonce>)` marking a seen nonce. -/
def nonceKey (id : String) (timestamp : Int) (nonce : String) : String :=
  ncKey [id, "nonce", toString timestamp, nonce]

/-- The skew-lookup step of `check_nonce`: use the recorded clock skew if
present, else record `skew = int(time.time() - timestamp)` under the skew
key with TTL `id_ttl`.  Returns the skew used and the updated cache. -/
def checkSkew (cfg : NonceCacheConfig) (st : CacheState) (now timestamp : Int)
    (key_skew : String) : Int × CacheState :=
  match mcGet st now key_skew with
  | some v => (v.toInt, st)
  | none => (now - timestamp, (mcAdd st now key_skew (.int (now - timestamp)) cfg.id_ttl).1)

/-- `MemcachedNonceCache.check_nonce` on a healthy cache: reject a nonce
already seen, adjust the timestamp by the recorded clock skew, reject it
when the adjusted timestamp falls outside the freshness window, and
otherwise mark the nonce seen and accept.  Returns the updated cache
contents and the verdict. -/
def checkNonce (cfg : NonceCacheConfig) (st : CacheState) (now : Int) (id : String)
    (timestamp : Int) (nonce : String) : CacheState × Bool :=
  if (mcGet st now (nonceKey id timestamp nonce)).isSome then (st, false)
  else if cfg.nonce_ttl ≤
      pyAbs (timestamp + (checkSkew cfg st now timestamp (skewKey id)).1 - now) then
    ((checkSkew cfg st now timestamp (skewKey id)).2, false)
  else
    ((mcAdd (checkSkew cfg st now timestamp (skewKey id)).2 now
      (nonceKey id timestamp nonce) (.bool true) cfg.nonce_ttl).1, true)

/-- Run a sequence of `check_nonce` calls, threading the cache state;
each call is `(now, id, timestamp, nonce)`. -/
def runCalls (cfg : NonceCacheConfig) : CacheState → List (Int × String × Int × String) →
    CacheState
  | st, [] => st
  | st, (now, id, ts, nonce) :: rest =>
    runCalls cfg (checkNonce cfg st now id ts nonce).1 rest

theorem mcGet_isSome_eq_find? (st : CacheState) (now : Int) (k : String) :
    (mcGet st now k).isSome = (st.find? (fun e => e.key == k && e.live now)).isSome := by
  rw [mcGet]
  cases st.find? (fun e => e.key == k && e.live now) <;> rfl

theorem mcGet_isSome_iff (st : CacheState) (now : Int) (k : String) :
    (mcGet st now k).isSome = true ↔ ∃ e ∈ st, e.key = k ∧ now < e.expiry := by
  rw [mcGet_isSome_eq_find?]
  constructor
  · intro h
    cases hf : st.find? (fun e => e.key == k && e.live now) with
    | none => rw [hf] at h; exact absurd h (by simp)
    | some e =>
      have hp := List.find?_some hf
      simp only [Bool.and_eq_true, beq_iff_eq, MCEntry.live, decide_eq_true_eq] at hp
      exact ⟨e, List.mem_of_find?_eq_some hf, hp.1, hp.2⟩
  · intro ⟨e, hmem, hkey, hexp⟩
    cases hf : st.find? (fun e => e.key == k && e.live now) with
    | some e2 => rfl
    | none =>
      have := List.find?_eq_none.mp hf e hmem
      simp only [Bool.and_eq_true, beq_iff_eq, MCEntry.live, decide_eq_true_eq, not_and] at this
      exact absurd hexp (this hkey)

theorem mcGet_cons_ne (e : MCEntry) (st : CacheState) (now : Int) (k : String)
    (h : e.key ≠ k) : mcGet (e :: st) now k = mcGet st now k := by
  rw [mcGet, mcGet, List.find?_cons_of_neg]
  simp [h]

/-- When no live entry holds the key, `add` prepends a fresh entry. -/
theorem mcAdd_of_absent (st : CacheState) (now : Int) (k : String) (v : MCValue) (ttl : Int)
    (h : (mcGet st now k).isSome = false) :
    (mcAdd st now k v ttl).1 = ⟨k, v, now + ttl⟩ :: st := by
  rw [mcAdd, if_neg]
  rw [← mcGet_isSome_eq_find?, h]
  exact Bool.false_ne_true

theorem mcAdd_mem_mono (st : CacheState) (now : Int) (k : String) (v : MCValue) (ttl : Int)
    (e : MCEntry) (h : e ∈ st) : e ∈ (mcAdd st now k v ttl).1 := by
  rw [mcAdd]
  split
  · exact h
  · exact List.mem_cons_of_mem _ h

theorem mcGet_mcAdd_other (st : CacheState) (now now2 : Int) (k k' : String) (v : MCValue)
    (ttl : Int) (h : k' ≠ k) : mcGet (mcAdd st now k v ttl).1 now2 k' = mcGet st now2 k' := by
  rw [mcAdd]
  split
  · rfl
  · exact mcGet_cons_ne _ _ _ _ (fun hc => h hc.symm)

theorem checkSkew_mem_mono (cfg : NonceCacheConfig) (st : CacheState) (now ts : Int)
    (ks : String) (e : MCEntry) (h : e ∈ st) : e ∈ (checkSkew cfg st now ts ks).2 := by
  rw [checkSkew]
  cases mcGet st now ks with
  | some v => exact h
  | none => exact mcAdd_mem_mono _ _ _ _ _ _ h

theorem mcGet_checkSkew_other (cfg : NonceCacheConfig) (st : CacheState) (now ts : Int)
    (ks k' : String) (h : k' ≠ ks) :
    mcGet (checkSkew cfg st now ts ks).2 now k' = mcGet st now k' := by
  rw [checkSkew]
  cases mcGet st now ks with
  | some v => rfl
  | none => exact mcGet_mcAdd_other _ _ _ _ _ _ _ h

theorem checkNonce_mem_mono (cfg : NonceCacheConfig) (st : CacheState) (now : Int)
    (id : String) (ts : Int) (nonce : String) (e : MCEntry) (h : e ∈ st) :
    e ∈ (checkNonce cfg st now id ts nonce).1 := by
  rw [checkNonce]
  split
  · exact h
  · split
    · exact checkSkew_mem_mono _ _ _ _ _ _ h
    · exact mcAdd_mem_mono _ _ _ _ _ _ (checkSkew_mem_mono _ _ _ _ _ _ h)

theorem runCalls_mem_mono (cfg : NonceCacheConfig) (e : MCEntry) :
    ∀ (calls : List (Int × String × Int × String)) (st : CacheState),
      e ∈ st → e ∈ runCalls cfg st calls
  | [], _, h => h
  | (now, id, ts, nonce) :: rest, st, h =>
    runCalls_mem_mono cfg e rest _ (checkNonce_mem_mono cfg st now id ts nonce e h)

/-- Distinct nonce strings yield distinct nonce keys (under the same id
and timestamp): the colon-join is injective in its last component. -/
theorem ncKey_nonce_inj (id ts : String) (a b : String)
    (h : ncKey [id, "nonce", ts, a] = ncKey [id, "nonce", ts, b]) : a = b := by
  have hd := congrArg String.data h
  simp only [ncKey, List.map_cons, List.map_nil, joinColonChars] at hd
  have h1 := List.append_cancel_left hd
  injection h1 with _ h2
  have h3 := List.append_cancel_left h2
  injection h3 with _ h4
  have h5 := List.append_cancel_left h4
  injection h5 with _ h6
  exact congrArg String.mk h6

/-- The skew key never collides with a nonce key for the same id. -/
theorem ncKey_skew_ne_nonce (id ts n : String) :
    ncKey [id, "skew"] ≠ ncKey [id, "nonce", ts, n] := by
  intro h
  have hd := congrArg String.data h
  simp only [ncKey, List.map_cons, List.map_nil, joinColonChars] at hd
  have h1 := List.append_cancel_left hd
  injection h1 with _ h2
  have h0 : (some 's' : Option Char) = some 'n' := congrArg (fun l => l.get? 0) h2
  exact absurd h0 (by decide)

theorem skewKey_ne_nonceKey (id : String) (ts : Int) (n : String) :
    skewKey id ≠ nonceKey id ts n :=
  ncKey_skew_ne_nonce id (toString ts) n

theorem nonceKey_inj (id : String) (ts : Int) (a b : String)
    (h : nonceKey id ts a = nonceKey id ts b) : a = b :=
  ncKey_nonce_inj id (toString ts) a b h

/-- An accepting `check_nonce` call leaves a seen-marker for its triple in
the cache, expiring `nonce_ttl` after the call. -/
theorem checkNonce_true_marks (cfg : NonceCacheConfig) (st : CacheState) (now : Int)
    (id : String) (ts : Int) (nonce : String)
    (h : (checkNonce cfg st now id ts nonce).2 = true) :
    (⟨nonceKey id ts nonce, .bool true, now + cfg.nonce_ttl⟩ : MCEntry) ∈
      (checkNonce cfg st now id ts nonce).1 := by
  rw [checkNonce] at h ⊢
  by_cases hg : (mcGet st now (nonceKey id ts nonce)).isSome = true
  · rw [if_pos hg] at h
    exact absurd h (by simp)
  · rw [if_neg hg] at h ⊢
    by_cases hw : cfg.nonce_ttl ≤
        pyAbs (ts + (checkSkew cfg st now ts (skewKey id)).1 - now)
    · rw [if_pos hw] at h
      exact absurd h (by simp)
    · rw [if_neg hw]
      have habs : (mcGet (checkSkew cfg st now ts (skewKey id)).2 now
          (nonceKey id ts nonce)).isSome = false := by
        rw [mcGet_checkSkew_other cfg st now ts (skewKey id) (nonceKey id ts nonce)
          (fun hc => skewKey_ne_nonceKey id ts nonce hc.symm)]
        exact Bool.not_eq_true _ |>.mp hg
      rw [mcAdd_of_absent _ _ _ _ _ habs]
      exact List.mem_cons_self _ _

/-- A live seen-marker for the triple forces rejection. -/
theorem checkNonce_false_of_live (cfg : NonceCacheConfig) (st : CacheState) (now : Int)
    (id : String) (ts : Int) (nonce : String) (e : MCEntry)
    (hmem : e ∈ st) (hkey : e.key = nonceKey id ts nonce) (hlive : now < e.expiry) :
    (checkNonce cfg st now id ts nonce).2 = false := by
  rw [checkNonce, if_pos ((mcGet_isSome_iff st now (nonceKey id ts nonce)).mpr
    ⟨e, hmem, hkey, hlive⟩)]

/-- After an accepting call, a *different* nonce string under the same id
and timestamp (fresh in the prior cache) is still accepted at the same
instant: the seen-marker and the skew record do not interfere with it. -/
theorem checkNonce_other_nonce (cfg : NonceCacheConfig) (st : CacheState) (now : Int)
    (id : String) (ts : Int) (n n' : String) (hne : n' ≠ n)
    (hfresh : (mcGet st now (nonceKey id ts n')).isSome = false)
    (h1 : (checkNonce cfg st now id ts n).2 = true) :
    (checkNonce cfg (checkNonce cfg st now id ts n).1 now id ts n').2 = true := by
  have hkk : nonceKey id ts n' ≠ nonceKey id ts n :=
    fun hc => hne (nonceKey_inj id ts n' n hc)
  have hks' : nonceKey id ts n' ≠ skewKey id :=
    fun hc => skewKey_ne_nonceKey id ts n' hc.symm
  have hks : nonceKey id ts n ≠ skewKey id :=
    fun hc => skewKey_ne_nonceKey id ts n hc.symm
  rw [checkNonce] at h1
  by_cases hg : (mcGet st now (nonceKey id ts n)).isSome = true
  · rw [if_pos hg] at h1
    exact absurd h1 (by simp)
  rw [if_neg hg] at h1
  by_cases hw : cfg.nonce_ttl ≤ pyAbs (ts + (checkSkew cfg st now ts (skewKey id)).1 - now)
  · rw [if_pos hw] at h1
    exact absurd h1 (by simp)
  have hcn : checkNonce cfg st now id ts n =
      ((mcAdd (checkSkew cfg st now ts (skewKey id)).2 now (nonceKey id ts n)
        (.bool true) cfg.nonce_ttl).1, true) := by
    rw [checkNonce, if_neg hg, if_neg hw]
  rw [hcn]
  -- the second call's guard: the n'-marker is still absent
  have hguard : (mcGet (mcAdd (checkSkew cfg st now ts (skewKey id)).2 now
      (nonceKey id ts n) (.bool true) cfg.nonce_ttl).1 now (nonceKey id ts n')).isSome
      = false := by
    rw [mcGet_mcAdd_other _ _ _ _ _ _ _ hkk,
      mcGet_checkSkew_other _ _ _ _ _ _ hks', hfresh]
  -- the second call sees the same skew value as the first call did
  have hskew : (checkSkew cfg (mcAdd (checkSkew cfg st now ts (skewKey id)).2 now
      (nonceKey id ts n) (.bool true) cfg.nonce_ttl).1 now ts (skewKey id)).1 =
      (checkSkew cfg st now ts (skewKey id)).1 := by
    have hthrough : mcGet (mcAdd (checkSkew cfg st now ts (skewKey id)).2 now
        (nonceKey id ts n) (.bool true) cfg.nonce_ttl).1 now (skewKey id) =
        mcGet (checkSkew cfg st now ts (skewKey id)).2 now (skewKey id) :=
      mcGet_mcAdd_other _ _ _ _ _ _ _ (fun hc => hks hc.symm)
    cases hsk : mcGet st now (skewKey id) with
    | some v =>
      have h2 : (checkSkew cfg st now ts (skewKey id)).2 = st := by
        rw [checkSkew, hsk]
      have h1v : (checkSkew cfg st now ts (skewKey id)).1 = v.toInt := by
        rw [checkSkew, hsk]
      rw [checkSkew, hthrough, h2, hsk, h1v]
    | none =>
      have habs : (mcGet st now (skewKey id)).isSome = false := by rw [hsk]; rfl
      have h2 : (checkSkew cfg st now ts (skewKey id)).2 =
          ⟨skewKey id, .int (now - ts), now + cfg.id_ttl⟩ :: st := by
        rw [checkSkew, hsk]
        exact mcAdd_of_absent _ _ _ _ _ habs
      have h1v : (checkSkew cfg st now ts (skewKey id)).1 = now - ts := by
        rw [checkSkew, hsk]
      rw [checkSkew, hthrough, h2, h1v]
      by_cases hid : now < now + cfg.id_ttl
      · have : mcGet (⟨skewKey id, .int (now - ts), now + cfg.id_ttl⟩ :: st) now
            (skewKey id) = some (.int (now - ts)) := by
          rw [mcGet, List.find?_cons_of_pos _ (by simp [MCEntry.live, hid])]
        rw [this]
        rfl
      · have : mcGet (⟨skewKey id, .int (now - ts), now + cfg.id_ttl⟩ :: st) now
            (skewKey id) = mcGet st now (skewKey id) := by
          rw [mcGet, mcGet, List.find?_cons_of_neg]
          simp [MCEntry.live, hid]
        rw [this, hsk]
  rw [checkNonce, if_neg (by rw [hguard]; exact Bool.false_ne_true), if_neg (by rw [hskew]; exact hw)]

/-- C3: at-most-once nonce acceptance.  If a `check_nonce` call accepts the
triple `(id, ts, n)` at time `now`, then after any further sequence of
calls, a call with the identical triple at any instant `now'` before the
marker's expiry `now + nonce_ttl` is rejected — so within the TTL window
at most one call per triple accepts, the first accepting call having
marked the triple seen — while a call with the same timestamp but a
different, fresh nonce string is still accepted. -/
theorem C3_nonce_at_most_once (cfg : NonceCacheConfig) (st : CacheState)
    (now now' : Int) (id : String) (ts : Int) (n n' : String)
    (calls : List (Int × String × Int × String))
    (h1 : (checkNonce cfg st now id ts n).2 = true)
    (hwin : now' < now + cfg.nonce_ttl)
    (hne : n' ≠ n)
    (hfresh : (mcGet st now (nonceKey id ts n')).isSome = false) :
    (checkNonce cfg (runCalls cfg (checkNonce cfg st now id ts n).1 calls)
      now' id ts n).2 = false ∧
    (checkNonce cfg (checkNonce cfg st now id ts n).1 now id ts n').2 = true := by
  constructor
  · exact checkNonce_false_of_live cfg _ now' id ts n
      ⟨nonceKey id ts n, .bool true, now + cfg.nonce_ttl⟩
      (runCalls_mem_mono cfg _ calls _ (checkNonce_true_marks cfg st now id ts n h1))
      rfl hwin
  · exact checkNonce_other_nonce cfg st now id ts n n' hne hfresh h1

/-- C3 (witness): on an empty cache with the default configuration, the
first call accepts; after an unrelated interleaved call, replaying the
identical triple one second later is rejected, while the sibling nonce
`"xyz"` is accepted immediately after the first call. -/
theorem C3_witness :
    (checkNonce ⟨30, 3660⟩ [] 1000 "i" 1000 "abc").2 = true ∧
    (1001 : Int) < 1000 + (30 : Int) ∧
    ("xyz" : String) ≠ "abc" ∧
    (mcGet [] 1000 (nonceKey "i" 1000 "xyz")).isSome = false ∧
    ((checkNonce ⟨30, 3660⟩ (runCalls ⟨30, 3660⟩
        (checkNonce ⟨30, 3660⟩ [] 1000 "i" 1000 "abc").1 [(1000, "j", 1000, "k")])
      1001 "i" 1000 "abc").2 = false ∧
    (checkNonce ⟨30, 3660⟩ (checkNonce ⟨30, 3660⟩ [] 1000 "i" 1000 "abc").1
      1000 "i" 1000 "xyz").2 = true) :=
  ⟨by decide, by decide, by decide, by decide,
    C3_nonce_at_most_once ⟨30, 3660⟩ [] 1000 1001 "i" 1000 "abc" "xyz"
      [(1000, "j", 1000, "k")] (by decide) (by decide) (by decide) (by decide)⟩

/-- C4 (counterexample): the claim says a fresh nonce with a timestamp more
than the window before the current time is rejected.  With no recorded
clock skew for the id (e.g. a fresh cache), the code computes
`skew = now - timestamp`, the adjusted offset is zero, and the stale
timestamp `now - window - 1` is *accepted*. -/
theorem C4_counterexample :
    (969 : Int) < 1000 - 30 ∧
    (checkNonce ⟨30, 3660⟩ [] 1000 "id" 969 "x").2 = true := ⟨by decide, by decide⟩

/-- C4 (amended): when the cache holds a live clock-skew record of zero
for the id (the skew an in-sync client records), a nonce is rejected
whenever its timestamp lies outside the open window
`(now - window, now + window)` — in particular more than the window before
or after `now` — and a fresh nonce with timestamp exactly `now` is
accepted; without a recorded skew the window test is vacuous because the
skew auto-calibrates to the incoming timestamp. -/
theorem C4_window_enforcement (cfg : NonceCacheConfig) (st : CacheState) (now : Int)
    (id : String) (ts : Int) (x : String)
    (httl : 0 < cfg.nonce_ttl)
    (hskew : mcGet st now (skewKey id) = some (.int 0)) :
    ((ts ≤ now - cfg.nonce_ttl ∨ now + cfg.nonce_ttl ≤ ts) →
      (checkNonce cfg st now id ts x).2 = false) ∧
    (ts = now → (mcGet st now (nonceKey id ts x)).isSome = false →
      (checkNonce cfg st now id ts x).2 = true) := by
  have hsk1 : (checkSkew cfg st now ts (skewKey id)).1 = 0 := by
    rw [checkSkew, hskew]
    rfl
  constructor
  · intro hout
    rw [checkNonce]
    by_cases hg : (mcGet st now (nonceKey id ts x)).isSome = true
    · rw [if_pos hg]
    · rw [if_neg hg, if_pos]
      rw [hsk1, pyAbs]
      rcases hout with h | h
      · rw [if_pos (by omega)]
        omega
      · rw [if_neg (by omega)]
        omega
  · intro hts hfresh
    rw [checkNonce, if_neg (by rw [hfresh]; exact Bool.false_ne_true), if_neg]
    rw [hsk1, pyAbs, hts]
    rw [if_neg (by omega)]
    omega

/-- C4 (witness): with a zero-skew record, `ts = now - window - 1` is
rejected, `ts = now + window + 1` is rejected, and `ts = now` is
accepted. -/
theorem C4_witness :
    (0 : Int) < 30 ∧
    mcGet [⟨skewKey "id", .int 0, 2000⟩] 1000 (skewKey "id") = some (.int 0) ∧
    (checkNonce ⟨30, 3660⟩ [⟨skewKey "id", .int 0, 2000⟩] 1000 "id" 969 "x").2 = false ∧
    (checkNonce ⟨30, 3660⟩ [⟨skewKey "id", .int 0, 2000⟩] 1000 "id" 1031 "x").2 = false ∧
    (checkNonce ⟨30, 3660⟩ [⟨skewKey "id", .int 0, 2000⟩] 1000 "id" 1000 "x").2 = true :=
  ⟨by decide, by decide,
    (C4_window_enforcement ⟨30, 3660⟩ [⟨skewKey "id", .int 0, 2000⟩] 1000 "id" 969 "x"
      (by decide) (by decide)).1 (Or.inl (by decide)),
    (C4_window_enforcement ⟨30, 3660⟩ [⟨skewKey "id", .int 0, 2000⟩] 1000 "id" 1031 "x"
      (by decide) (by decide)).1 (Or.inr (by decide)),
    (C4_window_enforcement ⟨30, 3660⟩ [⟨skewKey "id", .int 0, 2000⟩] 1000 "id" 1000 "x"
      (by decide) (by decide)).2 rfl (by decide)⟩

example : (checkNonce ⟨30, 3660⟩ [] 1000 "i" 1000 "abc").2 = true := by decide

example :
    (checkNonce ⟨30, 3660⟩ (checkNonce ⟨30, 3660⟩ [] 1000 "i" 1000 "abc").1
      1000 "i" 1000 "abc").2 = false := by decide

example :
    (checkNonce ⟨30, 3660⟩ (checkNonce ⟨30, 3660⟩ [] 1000 "i" 1000 "abc").1
      1000 "i" 1000 "xyz").2 = true := by decide

example : (checkNonce ⟨30, 3660⟩ [] 1000 "i" 969 "x").2 = true := by decide

/-! ### Cache-layer failures in `check_nonce`

`MemcachedClient` (`mozsvc/storage/mcclient.py`) turns connection
failures and timeouts into `BackendError` (raised from `_connect`), while
corrupt or oversized data surfaces as `ValueError` (JSON decode, key/value
size checks).  In `check_nonce` only the `get_multi` call sits inside a
`try`/`except ValueError`; the two `add` calls are unguarded.  We embed
the method once more with each cache interaction abstracted to its
outcome, so the embedding records which Python exceptions escape which
call site. -/

/-- The outcome of one cache-client call: a result, a `BackendError`
(connection failure or timeout), or a `ValueError` (corrupt data). -/
inductive MCOutcome (α : Type) where
  | ok (a : α)
  | backendError
  | valueError

/-- What `get_multi([key_skew, key_nonce])` returns when it succeeds:
whether the nonce key was present, and the skew value if present. -/
structure GetMultiData where
  nonceSeen : Bool
  skew : Option MCValue

/-- `MemcachedNonceCache.check_nonce` with explicit cache-call outcomes:
`except ValueError: return False` guards only the `get_multi`; a
`BackendError` there, and any error from either unguarded `add`,
propagates to the caller. -/
def checkNonceWithErrors (cfg : NonceCacheConfig) (now ts : Int)
    (gmRes : MCOutcome GetMultiData) (addSkewRes : MCOutcome Bool)
    (addNonceRes : MCOutcome Bool) : Except PyErr Bool :=
  match gmRes with
  | .valueError => .ok false
  | .backendError => .error .backendError
  | .ok cached =>
    if cached.nonceSeen then .ok false
    else
      match cached.skew with
      | some v =>
        if cfg.nonce_ttl ≤ pyAbs (ts + v.toInt - now) then .ok false
        else
          match addNonceRes with
          | .ok _ => .ok true
          | .backendError => .error .backendError
          | .valueError => .error (.valueError "cache value error")
      | none =>
        match addSkewRes with
        | .ok _ =>
          if cfg.nonce_ttl ≤ pyAbs (ts + (now - ts) - now) then .ok false
          else
            match addNonceRes with
            | .ok _ => .ok true
            | .backendError => .error .backendError
            | .valueError => .error (.valueError "cache value error")
        | .backendError => .error .backendError
        | .valueError => .error (.valueError "cache value error")

/-- C2 (counterexample): the claim says any cache-layer error during
`check_nonce` yields `False` and never propagates.  A connection failure
(`BackendError`) raised by `get_multi` propagates straight out of
`check_nonce` — the `except` clause catches only `ValueError`. -/
theorem C2_counterexample :
    checkNonceWithErrors ⟨30, 3660⟩ 1000 1000 .backendError (.ok true) (.ok true) =
      .error .backendError := rfl

/-- C2 (amended): `check_nonce` fails closed (returns `False`) when the
`get_multi` fetch raises `ValueError` (data corruption), for all
configurations, times and `add` outcomes; but a `BackendError` from
`get_multi` propagates, and so does a `BackendError` from the unguarded
skew-recording `add` reached on a fresh id. -/
theorem C2_fail_closed_on_value_error (cfg : NonceCacheConfig) (now ts : Int)
    (addSkewRes addNonceRes : MCOutcome Bool) :
    checkNonceWithErrors cfg now ts .valueError addSkewRes addNonceRes = .ok false ∧
    checkNonceWithErrors cfg now ts .backendError addSkewRes addNonceRes =
      .error .backendError ∧
    checkNonceWithErrors cfg now ts (.ok ⟨false, none⟩) .backendError addNonceRes =
      .error .backendError := by
  exact ⟨rfl, rfl, rfl⟩

end Mozsvc
